import Mathlib

/-!
Verification of the hierarchical-visualization engine of the intent-design-system
repository (src/components/IntentTree.tsx) against its specification.

The TypeScript source is shallowly embedded: JS numbers become rationals,
JS Map becomes an association list whose lookup returns the last write,
JS Set membership becomes list membership, and the external node type with
its accessor functions becomes a rose tree carrying an identifier (the source
normalizes every identifier to a string through toKey before use).
-/

namespace IntentTree

/-- Embedding of the clamp helper (IntentTree.tsx line 32):
Math.max(min, Math.min(max, n)). -/
def clamp (n lo hi : ℚ) : ℚ := max lo (min hi n)

/-- A JS Map is embedded as the list of its writes, most recent first.
mapSet prepends, so a later write shadows an earlier one under mapGet. -/
def mapSet {α : Type} (m : List (String × α)) (key : String) (v : α) : List (String × α) :=
  (key, v) :: m

/-- Lookup of a JS Map embedded as a write list: first (= most recent) match. -/
def mapGet {α : Type} (m : List (String × α)) (key : String) : Option α :=
  (m.find? (fun e => e.1 == key)).map (fun e => e.2)

/-- Building a JS Map by inserting a list of pairs in order (later wins). -/
def buildMap {α : Type} (pairs : List (String × α)) : List (String × α) :=
  pairs.foldl (fun m p => mapSet m p.1 p.2) []

theorem buildMap_eq_reverse {α : Type} (pairs : List (String × α)) :
    buildMap pairs = pairs.reverse := by
  suffices h : ∀ acc, pairs.foldl (fun m p => mapSet m p.1 p.2) acc = pairs.reverse ++ acc by
    simpa using h []
  induction pairs with
  | nil => intro acc; simp
  | cons p rest ih =>
    intro acc
    simp [mapSet, ih ((p.1, p.2) :: acc)]

/-- Under unique keys, looking a key up in the reversed write list is the same
as taking its first occurrence in insertion order. -/
theorem mapGet_buildMap_of_nodup {α : Type} (pairs : List (String × α)) (key : String)
    (h : (pairs.map (fun p => p.1)).Nodup) :
    mapGet (buildMap pairs) key = (pairs.find? (fun e => e.1 == key)).map (fun e => e.2) := by
  rw [buildMap_eq_reverse]
  unfold mapGet
  congr 1
  induction pairs with
  | nil => simp
  | cons p rest ih =>
    simp only [List.map_cons, List.nodup_cons] at h
    obtain ⟨hp, hrest⟩ := h
    by_cases hk : p.1 = key
    · subst hk
      have hnone : rest.reverse.find? (fun e => e.1 == p.1) = none := by
        rw [List.find?_eq_none]
        intro x hx
        simp only [beq_iff_eq]
        intro hx1
        exact hp (by
          rw [← hx1]
          exact List.mem_map_of_mem (fun q => q.1) (List.mem_reverse.mp hx))
      rw [List.reverse_cons, List.find?_append, hnone]
      simp
    · have hne : (p.1 == key) = false := by simpa using hk
      simp only [List.reverse_cons, List.find?_append, List.find?_cons, hne, List.find?_nil,
        cond_false, Option.or_none, ih hrest]

/-- clamp never goes below its lower bound. -/
theorem le_clamp (n lo hi : ℚ) : lo ≤ clamp n lo hi := le_max_left _ _

/-- clamp is idempotent (the source clamps the scale both in the zoom handler
and again inside setViewport). -/
theorem clamp_clamp (n lo hi : ℚ) : clamp (clamp n lo hi) lo hi = clamp n lo hi := by
  unfold clamp
  rcases le_total lo (min hi n) with h | h
  · rw [max_eq_right h, min_eq_right (min_le_left hi n), max_eq_right h]
  · rw [max_eq_left h, max_eq_left (min_le_right hi lo)]

/-- If the value is already inside the band, clamp is the identity. -/
theorem clamp_eq_self (n lo hi : ℚ) (h1 : lo ≤ n) (h2 : n ≤ hi) : clamp n lo hi = n := by
  unfold clamp
  rw [min_eq_right h2, max_eq_right h1]

/- ==========================================================================
   Viewport controller (IntentTree.tsx lines 1224-1236, 1269-1331, 1383-1410)
========================================================================== -/

/-- The pan/zoom viewport state x, y (translation) and k (scale). -/
structure Viewport where
  x : ℚ
  y : ℚ
  k : ℚ
deriving DecidableEq

/-- Embedding of setViewport (lines 1224-1236): x and y pass through,
k is clamped into the zoom band. -/
def setViewport (minZoom maxZoom : ℚ) (next : Viewport) : Viewport :=
  { x := next.x, y := next.y, k := clamp next.k minZoom maxZoom }

/-- Embedding of the wheel factor choice (lines 1396-1397): the factor is
1.08 for a zoom-in delta and 0.92 otherwise. -/
def wheelFactor (deltaY : ℚ) : ℚ :=
  if 0 < -deltaY then 108 / 100 else 92 / 100

/-- Embedding of the zoom math of the onWheel handler (lines 1399-1407):
the world point under the pointer is computed at the current scale and the
translation is re-solved so it maps back to the same screen point at the
new clamped scale. The result passes through setViewport. -/
def onWheelZoom (minZoom maxZoom : ℚ) (vp : Viewport) (mx my factor : ℚ) : Viewport :=
  let nextK := clamp (vp.k * factor) minZoom maxZoom
  let wx := (mx - vp.x) / vp.k
  let wy := (my - vp.y) / vp.k
  setViewport minZoom maxZoom { x := mx - wx * nextK, y := my - wy * nextK, k := nextK }

/-- The world point currently displayed at a given screen point
(screen = world * k + translate, inverted). -/
def worldUnder (vp : Viewport) (px py : ℚ) : ℚ × ℚ :=
  ((px - vp.x) / vp.k, (py - vp.y) / vp.k)

/-- C1. Zoom-anchor invariant: for every viewport whose scale lies in
[minZoom, maxZoom] with 0 < minZoom, every pointer screen position and every
zoom factor, the world point under the pointer before the wheel zoom equals
the world point under it afterwards, also when the new scale is clamped at a
bound (exact over the rationals, hence within any floating-point tolerance). -/
theorem zoom_anchor_invariant (minZoom maxZoom : ℚ) (vp : Viewport) (mx my factor : ℚ)
    (hmin : 0 < minZoom) (hk1 : minZoom ≤ vp.k) (hk2 : vp.k ≤ maxZoom) :
    worldUnder (onWheelZoom minZoom maxZoom vp mx my factor) mx my = worldUnder vp mx my := by
  have hnk : 0 < clamp (vp.k * factor) minZoom maxZoom :=
    lt_of_lt_of_le hmin (le_clamp _ _ _)
  have hnk0 : clamp (vp.k * factor) minZoom maxZoom ≠ 0 := ne_of_gt hnk
  have hk0 : vp.k ≠ 0 := ne_of_gt (lt_of_lt_of_le hmin hk1)
  unfold worldUnder onWheelZoom setViewport
  simp only [clamp_clamp, Prod.mk.injEq]
  constructor <;> (field_simp; ring)

/-- Witness for C1 at a concrete input: viewport scale 1, band [1, 2],
pointer (100, 100), factor 2. -/
theorem zoom_anchor_invariant_witness :
    (0 : ℚ) < 1 ∧ (1 : ℚ) ≤ 1 ∧ (1 : ℚ) ≤ 2 ∧
    worldUnder (onWheelZoom 1 2 ⟨0, 0, 1⟩ 100 100 2) 100 100 = worldUnder ⟨0, 0, 1⟩ 100 100 :=
  ⟨by decide, by decide, by decide,
    zoom_anchor_invariant 1 2 ⟨0, 0, 1⟩ 100 100 2 (by decide) (by decide) (by decide)⟩

/- ==========================================================================
   Content bounds and fit-to-content (IntentTree.tsx lines 874-889, 1269-1300)
========================================================================== -/

/-- Axis-aligned bounding box, expanded by the layout padding. -/
structure Bounds where
  minX : ℚ
  minY : ℚ
  maxX : ℚ
  maxY : ℚ
deriving DecidableEq

/-- The min/max fold of boundsOf (lines 881-886). The source starts the fold
from plus/minus infinity; over the rationals this is embedded by starting
from the first point, which yields the same min/max over a non-empty list. -/
def boundsFold (pts : List (ℚ × ℚ)) (init : Bounds) : Bounds :=
  pts.foldl (fun b q => ⟨min b.minX q.1, min b.minY q.2, max b.maxX q.1, max b.maxY q.2⟩) init

/-- Embedding of boundsOf (lines 874-889): bounding box of the node
positions, expanded by pad on every side; a fixed small box when empty. -/
def boundsOf (pts : List (ℚ × ℚ)) (pad : ℚ) : Bounds :=
  match pts with
  | [] => ⟨-pad, -pad, pad, pad⟩
  | p :: rest =>
    let b := boundsFold rest ⟨p.1, p.2, p.1, p.2⟩
    ⟨b.minX - pad, b.minY - pad, b.maxX + pad, b.maxY + pad⟩

theorem boundsFold_init_le (pts : List (ℚ × ℚ)) (init : Bounds) :
    (boundsFold pts init).minX ≤ init.minX ∧ (boundsFold pts init).minY ≤ init.minY ∧
    init.maxX ≤ (boundsFold pts init).maxX ∧ init.maxY ≤ (boundsFold pts init).maxY := by
  induction pts generalizing init with
  | nil => exact ⟨le_refl _, le_refl _, le_refl _, le_refl _⟩
  | cons q rest ih =>
    obtain ⟨h1, h2, h3, h4⟩ := ih ⟨min init.minX q.1, min init.minY q.2,
      max init.maxX q.1, max init.maxY q.2⟩
    exact ⟨le_trans h1 (min_le_left _ _), le_trans h2 (min_le_left _ _),
      le_trans (le_max_left _ _) h3, le_trans (le_max_left _ _) h4⟩

theorem boundsFold_mem_le (pts : List (ℚ × ℚ)) (init : Bounds) (p : ℚ × ℚ) (hp : p ∈ pts) :
    (boundsFold pts init).minX ≤ p.1 ∧ (boundsFold pts init).minY ≤ p.2 ∧
    p.1 ≤ (boundsFold pts init).maxX ∧ p.2 ≤ (boundsFold pts init).maxY := by
  induction pts generalizing init with
  | nil => cases hp
  | cons q rest ih =>
    rcases List.mem_cons.mp hp with hq | hrest
    · subst hq
      obtain ⟨h1, h2, h3, h4⟩ := boundsFold_init_le rest ⟨min init.minX p.1, min init.minY p.2,
        max init.maxX p.1, max init.maxY p.2⟩
      exact ⟨le_trans h1 (min_le_right _ _), le_trans h2 (min_le_right _ _),
        le_trans (le_max_right _ _) h3, le_trans (le_max_right _ _) h4⟩
    · exact ih _ hrest

/-- Every point of a non-empty list lies inside its padded bounding box,
at distance at least pad from each side. -/
theorem boundsOf_mem (pts : List (ℚ × ℚ)) (pad : ℚ) (p : ℚ × ℚ) (hp : p ∈ pts) :
    (boundsOf pts pad).minX + pad ≤ p.1 ∧ (boundsOf pts pad).minY + pad ≤ p.2 ∧
    p.1 ≤ (boundsOf pts pad).maxX - pad ∧ p.2 ≤ (boundsOf pts pad).maxY - pad := by
  match pts, hp with
  | q :: rest, hp =>
    rcases List.mem_cons.mp hp with hq | hrest
    · subst hq
      obtain ⟨h1, h2, h3, h4⟩ := boundsFold_init_le rest ⟨p.1, p.2, p.1, p.2⟩
      unfold boundsOf
      constructor
      · simpa using h1
      refine ⟨by simpa using h2, by simpa using h3, by simpa using h4⟩
    · obtain ⟨h1, h2, h3, h4⟩ := boundsFold_mem_le rest ⟨q.1, q.2, q.1, q.2⟩ p hrest
      unfold boundsOf
      constructor
      · simpa using h1
      refine ⟨by simpa using h2, by simpa using h3, by simpa using h4⟩

/-- The content width derived inside fitToContent (line 1278). -/
def contentWOf (pts : List (ℚ × ℚ)) (padding nodeWidth : ℚ) : ℚ :=
  max 1 ((boundsOf pts padding).maxX - (boundsOf pts padding).minX + nodeWidth)

/-- The content height derived inside fitToContent (line 1279). -/
def contentHOf (pts : List (ℚ × ℚ)) (padding nodeHeight : ℚ) : ℚ :=
  max 1 ((boundsOf pts padding).maxY - (boundsOf pts padding).minY + nodeHeight)

/-- The unclamped fit scale min(viewportW/contentW, viewportH/contentH)
(line 1281, before the clamp). -/
def fitScale (pts : List (ℚ × ℚ)) (w h padding nodeWidth nodeHeight : ℚ) : ℚ :=
  min (w / contentWOf pts padding nodeWidth) (h / contentHOf pts padding nodeHeight)

/-- Embedding of fitToContent (lines 1269-1289): clamp the fit scale into the
zoom band and center the padded content box in the viewport. -/
def fitToContent (pts : List (ℚ × ℚ)) (w h padding nodeWidth nodeHeight minZoom maxZoom : ℚ) :
    Viewport :=
  let b := boundsOf pts padding
  let k := clamp (fitScale pts w h padding nodeWidth nodeHeight) minZoom maxZoom
  let cx := (b.minX + b.maxX + nodeWidth) / 2
  let cy := (b.minY + b.maxY + nodeHeight) / 2
  setViewport minZoom maxZoom ⟨w / 2 - cx * k, h / 2 - cy * k, k⟩

/-- The screen rectangle of a node (world position extended by the node size,
projected through screen = world * k + translate) lies inside the viewport. -/
def nodeRectWithin (vp : Viewport) (w h nodeWidth nodeHeight nx ny : ℚ) : Prop :=
  0 ≤ nx * vp.k + vp.x ∧ (nx + nodeWidth) * vp.k + vp.x ≤ w ∧
  0 ≤ ny * vp.k + vp.y ∧ (ny + nodeHeight) * vp.k + vp.y ≤ h

/-- C4 counterexample: with nodes at (0,0), node size 220 x 64, viewport
100 x 100, padding 0 and zoom band [1, 2], the fit scale 5/11 is clamped up
to 1 and the projected node rectangle sticks out of the viewport, so the
claim as stated (containment for every zoom band) is false. -/
theorem fit_to_content_containment_cex :
    ¬ nodeRectWithin (fitToContent [((0 : ℚ), (0 : ℚ))] 100 100 0 220 64 1 2)
      100 100 220 64 0 0 := by
  intro hcl
  obtain ⟨h1, _, _, _⟩ := hcl
  norm_num [fitToContent, setViewport, fitScale, contentWOf, contentHOf, boundsOf, boundsFold,
    clamp] at h1

/-- C4 (amended). Fit-to-content containment holds whenever the derived fit
scale is not clamped: for a non-empty node set, positive viewport size,
non-negative padding, and a zoom band that contains the unclamped fit scale,
after fitToContent every node rectangle projects inside the viewport bounds
(hence a fortiori within them modulo the configured padding). When the scale
is clamped at a band bound the content can overflow, as the counterexample
shows. -/
theorem axis_within (bmin bmax pad nodeW cw w s px : ℚ)
    (hs : 0 ≤ s) (hcwge : bmax - bmin + nodeW ≤ cw) (hscw : s * cw ≤ w)
    (h1 : bmin + pad ≤ px) (h2 : px ≤ bmax - pad) (hpad : 0 ≤ pad) :
    0 ≤ px * s + (w / 2 - (bmin + bmax + nodeW) / 2 * s) ∧
    (px + nodeW) * s + (w / 2 - (bmin + bmax + nodeW) / 2 * s) ≤ w := by
  constructor
  · nlinarith [mul_le_mul_of_nonneg_right
      (show (bmin + bmax + nodeW) / 2 - px ≤ cw / 2 by linarith) hs]
  · nlinarith [mul_le_mul_of_nonneg_right
      (show px + nodeW - (bmin + bmax + nodeW) / 2 ≤ cw / 2 by linarith) hs]

theorem fit_to_content_containment (pts : List (ℚ × ℚ))
    (w h padding nodeWidth nodeHeight minZoom maxZoom : ℚ)
    (hw : 0 < w) (hh : 0 < h) (hpad : 0 ≤ padding)
    (hlo : minZoom ≤ fitScale pts w h padding nodeWidth nodeHeight)
    (hhi : fitScale pts w h padding nodeWidth nodeHeight ≤ maxZoom) :
    ∀ p ∈ pts, nodeRectWithin (fitToContent pts w h padding nodeWidth nodeHeight minZoom maxZoom)
      w h nodeWidth nodeHeight p.1 p.2 := by
  intro p hp
  have hks : clamp (fitScale pts w h padding nodeWidth nodeHeight) minZoom maxZoom
      = fitScale pts w h padding nodeWidth nodeHeight := clamp_eq_self _ _ _ hlo hhi
  have hcw : (0 : ℚ) < contentWOf pts padding nodeWidth :=
    lt_of_lt_of_le one_pos (le_max_left _ _)
  have hch : (0 : ℚ) < contentHOf pts padding nodeHeight :=
    lt_of_lt_of_le one_pos (le_max_left _ _)
  have hs0 : 0 < fitScale pts w h padding nodeWidth nodeHeight := by
    unfold fitScale
    exact lt_min (div_pos hw hcw) (div_pos hh hch)
  have hscw : fitScale pts w h padding nodeWidth nodeHeight
      * contentWOf pts padding nodeWidth ≤ w :=
    (le_div_iff hcw).mp (by unfold fitScale; exact min_le_left _ _)
  have hsch : fitScale pts w h padding nodeWidth nodeHeight
      * contentHOf pts padding nodeHeight ≤ h :=
    (le_div_iff hch).mp (by unfold fitScale; exact min_le_right _ _)
  obtain ⟨hp1, hp2, hp3, hp4⟩ := boundsOf_mem pts padding p hp
  have hcwge : (boundsOf pts padding).maxX - (boundsOf pts padding).minX + nodeWidth
      ≤ contentWOf pts padding nodeWidth := le_max_right _ _
  have hchge : (boundsOf pts padding).maxY - (boundsOf pts padding).minY + nodeHeight
      ≤ contentHOf pts padding nodeHeight := le_max_right _ _
  have hvp : fitToContent pts w h padding nodeWidth nodeHeight minZoom maxZoom =
      ⟨w / 2 - ((boundsOf pts padding).minX + (boundsOf pts padding).maxX + nodeWidth) / 2
          * fitScale pts w h padding nodeWidth nodeHeight,
        h / 2 - ((boundsOf pts padding).minY + (boundsOf pts padding).maxY + nodeHeight) / 2
          * fitScale pts w h padding nodeWidth nodeHeight,
        fitScale pts w h padding nodeWidth nodeHeight⟩ := by
    simp only [fitToContent, setViewport, clamp_clamp, hks]
  rw [hvp]
  obtain ⟨hx1, hx2⟩ := axis_within (boundsOf pts padding).minX (boundsOf pts padding).maxX
    padding nodeWidth (contentWOf pts padding nodeWidth) w
    (fitScale pts w h padding nodeWidth nodeHeight) p.1
    (le_of_lt hs0) hcwge hscw hp1 hp3 hpad
  obtain ⟨hy1, hy2⟩ := axis_within (boundsOf pts padding).minY (boundsOf pts padding).maxY
    padding nodeHeight (contentHOf pts padding nodeHeight) h
    (fitScale pts w h padding nodeWidth nodeHeight) p.2
    (le_of_lt hs0) hchge hsch hp2 hp4 hpad
  exact ⟨hx1, hx2, hy1, hy2⟩

/-- Witness for C4 at a concrete input: a single node at the origin, node
size 1 x 1, padding 0, viewport 10 x 10, zoom band [1, 10]: the fit scale is
10 and is not clamped. -/
theorem fit_to_content_containment_witness :
    (0 : ℚ) < 10 ∧ (0 : ℚ) ≤ 0 ∧
    (1 : ℚ) ≤ fitScale [((0 : ℚ), (0 : ℚ))] 10 10 0 1 1 ∧
    fitScale [((0 : ℚ), (0 : ℚ))] 10 10 0 1 1 ≤ 10 ∧
    nodeRectWithin (fitToContent [((0 : ℚ), (0 : ℚ))] 10 10 0 1 1 1 10) 10 10 1 1 0 0 := by
  have hfs : fitScale [((0 : ℚ), (0 : ℚ))] 10 10 0 1 1 = 10 := by
    norm_num [fitScale, contentWOf, contentHOf, boundsOf, boundsFold]
  refine ⟨by norm_num, le_refl 0, by rw [hfs]; norm_num, by rw [hfs],
    fit_to_content_containment [((0 : ℚ), (0 : ℚ))] 10 10 0 1 1 1 10
      (by norm_num) (by norm_num) (le_refl 0) (by rw [hfs]; norm_num) (by rw [hfs])
      ((0 : ℚ), (0 : ℚ)) (by simp)⟩

/- ==========================================================================
   Computed nodes (IntentTree.tsx lines 828-837) and the operations over them
========================================================================== -/

/-- A flat node with its assigned world position (IntentTreeComputedNode):
id, parentId, depth, per-layout order, x, y, and the ids of the immediate
children that were actually visited. -/
structure ComputedNode where
  id : String
  parentId : Option String
  depth : Nat
  order : Nat
  x : ℚ
  y : ℚ
  childrenIds : List String
deriving DecidableEq

/-- Embedding of the nodeById map (lines 1121-1125). -/
def nodeByIdOf (nodes : List ComputedNode) : List (String × ComputedNode) :=
  buildMap (nodes.map fun n => (n.id, n))

/-- Embedding of the parentById map (lines 1143-1147). -/
def parentByIdOf (nodes : List ComputedNode) : List (String × Option String) :=
  buildMap (nodes.map fun n => (n.id, n.parentId))

/-- Embedding of the childrenById map (lines 1149-1153). -/
def childrenByIdOf (nodes : List ComputedNode) : List (String × List String) :=
  buildMap (nodes.map fun n => (n.id, n.childrenIds))

/- ==========================================================================
   Minimap projector (IntentTree.tsx lines 1844-1868, 2134-2154)
========================================================================== -/

/-- A rectangle in minimap space. -/
structure Rect where
  x : ℚ
  y : ℚ
  w : ℚ
  h : ℚ
deriving DecidableEq

/-- The minimap affine transform: size, scale and translation. -/
structure MiniTransform where
  w : ℚ
  h : ℚ
  k : ℚ
  tx : ℚ
  ty : ℚ
deriving DecidableEq

/-- Embedding of the mini memo (lines 1852-1868): the scale fits the padded
content box into the minimap minus its own padding, and the translation puts
the top-left corner of the content box at (miniMapPadding, miniMapPadding). -/
def mini (miniMapWidth miniMapHeight miniMapPadding padding nodeWidth nodeHeight : ℚ)
    (nodes : List ComputedNode) : MiniTransform :=
  let cb := boundsOf (nodes.map fun n => (n.x, n.y)) padding
  let contentW := max 1 (cb.maxX - cb.minX + nodeWidth)
  let contentH := max 1 (cb.maxY - cb.minY + nodeHeight)
  let k := min ((miniMapWidth - miniMapPadding * 2) / contentW)
    ((miniMapHeight - miniMapPadding * 2) / contentH)
  { w := miniMapWidth, h := miniMapHeight, k := k,
    tx := miniMapPadding - cb.minX * k, ty := miniMapPadding - cb.minY * k }

/-- Embedding of the minimap node rectangle as rendered (lines 2146-2149):
position projected through the mini transform, width and height scaled but
floored at 2 minimap pixels. -/
def miniNodeRect (m : MiniTransform) (nodeWidth nodeHeight nx ny : ℚ) : Rect :=
  { x := nx * m.k + m.tx, y := ny * m.k + m.ty,
    w := max 2 (nodeWidth * m.k), h := max 2 (nodeHeight * m.k) }

/-- Modelled from the spec for comparison (claim C9 and spec section 4.5):
the node rectangle the claim describes, with width exactly nodeWidth times
miniK, height exactly nodeHeight times miniK, and a translation that centers
the content box in the minimap. -/
def miniSpecRect (miniMapWidth miniMapHeight miniMapPadding padding nodeWidth nodeHeight : ℚ)
    (nodes : List ComputedNode) (nx ny : ℚ) : Rect :=
  let cb := boundsOf (nodes.map fun n => (n.x, n.y)) padding
  let contentW := max 1 (cb.maxX - cb.minX + nodeWidth)
  let contentH := max 1 (cb.maxY - cb.minY + nodeHeight)
  let k := min ((miniMapWidth - 2 * miniMapPadding) / contentW)
    ((miniMapHeight - 2 * miniMapPadding) / contentH)
  let tx := miniMapWidth / 2 - (cb.minX + cb.maxX + nodeWidth) / 2 * k
  let ty := miniMapHeight / 2 - (cb.minY + cb.maxY + nodeHeight) / 2 * k
  { x := nx * k + tx, y := ny * k + ty, w := nodeWidth * k, h := nodeHeight * k }

/-- C9 counterexample: with a single node at the origin, padding 40, node
size 220 x 64 and a 220 x 140 minimap with padding 12, the drawn rectangle
differs from the claimed centered projection (the code anchors the content
box at the padding corner instead of centering it), so the claim as stated
is false. -/
theorem minimap_projection_cex :
    miniNodeRect (mini 220 140 12 40 220 64 [⟨"A", none, 0, 0, 0, 0, []⟩]) 220 64 0 0 ≠
    miniSpecRect 220 140 12 40 220 64 [⟨"A", none, 0, 0, 0, 0, []⟩] 0 0 := by
  intro hcl
  have hy := congrArg Rect.y hcl
  norm_num [mini, miniNodeRect, miniSpecRect, boundsOf, boundsFold] at hy

/-- C9 (amended). Minimap node projection formula: for every configuration
and node position, the rectangle drawn in minimap space is
(nx * miniK + miniTx, ny * miniK + miniTy) with width max(2, nodeWidth * miniK)
and height max(2, nodeHeight * miniK), where
miniK = min((miniW - 2 pad)/contentW, (miniH - 2 pad)/contentH) and the
translation anchors the top-left corner of the content box at (pad, pad)
(miniTx = pad - minX * miniK), not at the center. -/
theorem minimap_projection (miniMapWidth miniMapHeight miniMapPadding padding
    nodeWidth nodeHeight nx ny : ℚ) (nodes : List ComputedNode) :
    miniNodeRect (mini miniMapWidth miniMapHeight miniMapPadding padding nodeWidth nodeHeight
      nodes) nodeWidth nodeHeight nx ny =
    { x := nx * min ((miniMapWidth - 2 * miniMapPadding)
            / max 1 ((boundsOf (nodes.map fun n => (n.x, n.y)) padding).maxX
              - (boundsOf (nodes.map fun n => (n.x, n.y)) padding).minX + nodeWidth))
          ((miniMapHeight - 2 * miniMapPadding)
            / max 1 ((boundsOf (nodes.map fun n => (n.x, n.y)) padding).maxY
              - (boundsOf (nodes.map fun n => (n.x, n.y)) padding).minY + nodeHeight))
        + (miniMapPadding - (boundsOf (nodes.map fun n => (n.x, n.y)) padding).minX
          * min ((miniMapWidth - 2 * miniMapPadding)
            / max 1 ((boundsOf (nodes.map fun n => (n.x, n.y)) padding).maxX
              - (boundsOf (nodes.map fun n => (n.x, n.y)) padding).minX + nodeWidth))
          ((miniMapHeight - 2 * miniMapPadding)
            / max 1 ((boundsOf (nodes.map fun n => (n.x, n.y)) padding).maxY
              - (boundsOf (nodes.map fun n => (n.x, n.y)) padding).minY + nodeHeight))),
      y := ny * min ((miniMapWidth - 2 * miniMapPadding)
            / max 1 ((boundsOf (nodes.map fun n => (n.x, n.y)) padding).maxX
              - (boundsOf (nodes.map fun n => (n.x, n.y)) padding).minX + nodeWidth))
          ((miniMapHeight - 2 * miniMapPadding)
            / max 1 ((boundsOf (nodes.map fun n => (n.x, n.y)) padding).maxY
              - (boundsOf (nodes.map fun n => (n.x, n.y)) padding).minY + nodeHeight))
        + (miniMapPadding - (boundsOf (nodes.map fun n => (n.x, n.y)) padding).minY
          * min ((miniMapWidth - 2 * miniMapPadding)
            / max 1 ((boundsOf (nodes.map fun n => (n.x, n.y)) padding).maxX
              - (boundsOf (nodes.map fun n => (n.x, n.y)) padding).minX + nodeWidth))
          ((miniMapHeight - 2 * miniMapPadding)
            / max 1 ((boundsOf (nodes.map fun n => (n.x, n.y)) padding).maxY
              - (boundsOf (nodes.map fun n => (n.x, n.y)) padding).minY + nodeHeight))),
      w := max 2 (nodeWidth * min ((miniMapWidth - 2 * miniMapPadding)
            / max 1 ((boundsOf (nodes.map fun n => (n.x, n.y)) padding).maxX
              - (boundsOf (nodes.map fun n => (n.x, n.y)) padding).minX + nodeWidth))
          ((miniMapHeight - 2 * miniMapPadding)
            / max 1 ((boundsOf (nodes.map fun n => (n.x, n.y)) padding).maxY
              - (boundsOf (nodes.map fun n => (n.x, n.y)) padding).minY + nodeHeight))),
      h := max 2 (nodeHeight * min ((miniMapWidth - 2 * miniMapPadding)
            / max 1 ((boundsOf (nodes.map fun n => (n.x, n.y)) padding).maxX
              - (boundsOf (nodes.map fun n => (n.x, n.y)) padding).minX + nodeWidth))
          ((miniMapHeight - 2 * miniMapPadding)
            / max 1 ((boundsOf (nodes.map fun n => (n.x, n.y)) padding).maxY
              - (boundsOf (nodes.map fun n => (n.x, n.y)) padding).minY + nodeHeight))) } := by
  simp only [mini, miniNodeRect, Rect.mk.injEq]
  refine ⟨by ring, by ring, by ring, by ring⟩

/- ==========================================================================
   Selection (IntentTree.tsx lines 1072-1078, 1484-1492)
========================================================================== -/

/-- Embedding of selectNode (lines 1484-1492). The result is none when the
guard rejects the action, otherwise the pair of the next selection and the
node payload passed to the selection-change callback (setSelectedId reports
both to onSelectionChange; the payload is undefined when deselecting). -/
def selectNode {T : Type} (selectable disabled : Bool) (selectedId : Option String)
    (id : String) (node : T) : Option (Option String × Option T) :=
  if selectable && !disabled then
    let next : Option String := if selectedId = some id then none else some id
    some (next, if next.isSome then some node else none)
  else
    none

/-- C10. Selection toggle: with selection enabled and not disabled, selecting
the currently selected id clears the selection and reports null with no node
payload, while selecting any other id selects it and reports the node
payload. -/
theorem selection_toggle {T : Type} (selectedId : Option String) (id : String) (node : T) :
    (selectedId = some id →
      selectNode true false selectedId id node = some (none, none)) ∧
    (selectedId ≠ some id →
      selectNode true false selectedId id node = some (some id, some node)) := by
  constructor
  · intro h
    simp [selectNode, h]
  · intro h
    simp [selectNode, h]

/-- Witness for C10 at concrete inputs: selecting the already selected node
clears it; selecting a different node selects it with its payload. -/
theorem selection_toggle_witness :
    selectNode true false (some "sel") "sel" (0 : Nat) = some (none, none) ∧
    selectNode true false (some "sel") "other" (0 : Nat) = some (some "other", some 0) :=
  ⟨(selection_toggle (some "sel") "sel" (0 : Nat)).1 (by decide),
    (selection_toggle (some "sel") "other" (0 : Nat)).2 (by decide)⟩

/- ==========================================================================
   Center-on-node and search commit (IntentTree.tsx lines 1302-1331, 1650-1659)
========================================================================== -/

/-- Embedding of centerOnNode (lines 1302-1318) for a node at (nx, ny): the
override (or current) scale is clamped, then the translation maps the node
center to the viewport center; the result passes through setViewport. -/
def centerOnNode (w h nodeWidth nodeHeight minZoom maxZoom vpK nx ny : ℚ)
    (kOverride : Option ℚ) : Viewport :=
  let k := clamp (kOverride.getD vpK) minZoom maxZoom
  setViewport minZoom maxZoom
    ⟨w / 2 - (nx + nodeWidth / 2) * k, h / 2 - (ny + nodeHeight / 2) * k, k⟩

/-- Embedding of commitSearch (lines 1650-1659): nothing happens when the id
is not indexed; otherwise the node is selected and the viewport centered on
it with scale override max(current, 1). The result is the committed
selection and the new viewport. -/
def commitSearch (nodes : List ComputedNode) (w h nodeWidth nodeHeight minZoom maxZoom : ℚ)
    (vp : Viewport) (id : String) : Option (String × Viewport) :=
  match mapGet (nodeByIdOf nodes) id with
  | none => none
  | some n => some (id, centerOnNode w h nodeWidth nodeHeight minZoom maxZoom vp.k n.x n.y
      (some (max vp.k 1)))

/-- C8 counterexample: with zoom band [1/4, 1/2] and current scale 1/2,
committing a search result yields scale 1/2, wich is below 1, so the claim
(scale at least 1 for all values of minZoom and maxZoom) is false. -/
theorem search_commit_zoom_floor_cex :
    ((commitSearch [⟨"A", none, 0, 0, 0, 0, []⟩] 100 100 220 64 (1/4) (1/2)
      ⟨0, 0, 1/2⟩ "A").map fun r => r.2.k) = some (1/2) ∧ ((1 : ℚ)/2) < 1 := by
  constructor
  · norm_num [commitSearch, nodeByIdOf, buildMap, mapSet, mapGet, centerOnNode, setViewport,
      clamp]
  · norm_num

/-- C8 (amended). Search-commit zoom floor: when the committed id is indexed,
the maximum zoom is at least 1 and the current scale does not exceed it,
committing a search result selects that id and centers the viewport on the
node with scale clamp(max(k, 1), minZoom, maxZoom); that scale is at least 1
and never lower than the scale before the commit. Without those bounds (for
example maxZoom below 1) the scale can end below 1, as the counterexample
shows. -/
theorem search_commit_zoom_floor (nodes : List ComputedNode)
    (w h nodeWidth nodeHeight minZoom maxZoom : ℚ) (vp : Viewport) (id : String)
    (n : ComputedNode) (hfind : mapGet (nodeByIdOf nodes) id = some n)
    (hmax : 1 ≤ maxZoom) (hk : vp.k ≤ maxZoom) :
    commitSearch nodes w h nodeWidth nodeHeight minZoom maxZoom vp id =
      some (id, ⟨w / 2 - (n.x + nodeWidth / 2) * clamp (max vp.k 1) minZoom maxZoom,
        h / 2 - (n.y + nodeHeight / 2) * clamp (max vp.k 1) minZoom maxZoom,
        clamp (max vp.k 1) minZoom maxZoom⟩) ∧
    1 ≤ clamp (max vp.k 1) minZoom maxZoom ∧
    vp.k ≤ clamp (max vp.k 1) minZoom maxZoom := by
  have hmin : min maxZoom (max vp.k 1) = max vp.k 1 :=
    min_eq_right (max_le hk hmax)
  have hge : max vp.k 1 ≤ clamp (max vp.k 1) minZoom maxZoom := by
    unfold clamp
    rw [hmin]
    exact le_max_right _ _
  refine ⟨?_, le_trans (le_max_right _ _) hge, le_trans (le_max_left _ _) hge⟩
  unfold commitSearch
  rw [hfind]
  unfold centerOnNode setViewport
  simp [clamp_clamp]

/-- Witness for C8 at a concrete input: a single indexed node at the origin,
band [1/4, 2], current scale 1. -/
theorem search_commit_zoom_floor_witness :
    mapGet (nodeByIdOf [⟨"A", none, 0, 0, 0, 0, []⟩]) "A" = some ⟨"A", none, 0, 0, 0, 0, []⟩ ∧
    (1 : ℚ) ≤ 2 ∧ (1 : ℚ) ≤ 2 ∧
    (commitSearch [⟨"A", none, 0, 0, 0, 0, []⟩] 100 100 220 64 (1/4) 2 ⟨0, 0, 1⟩ "A" =
      some ("A", ⟨100 / 2 - ((0 : ℚ) + 220 / 2) * clamp (max 1 1) (1/4) 2,
        100 / 2 - ((0 : ℚ) + 64 / 2) * clamp (max 1 1) (1/4) 2, clamp (max 1 1) (1/4) 2⟩) ∧
      1 ≤ clamp (max (1 : ℚ) 1) (1/4) 2 ∧ (1 : ℚ) ≤ clamp (max (1 : ℚ) 1) (1/4) 2) :=
  ⟨rfl, by decide, by decide,
    search_commit_zoom_floor [⟨"A", none, 0, 0, 0, 0, []⟩] 100 100 220 64 (1/4) 2
      ⟨0, 0, 1⟩ "A" ⟨"A", none, 0, 0, 0, 0, []⟩ rfl (by decide) (by decide)⟩

/- ==========================================================================
   Search index (IntentTree.tsx lines 1634-1648)
========================================================================== -/

/-- JS strings are embedded as lists of characters for the search layer. -/
def lowerL (l : List Char) : List Char := l.map Char.toLower

/-- Embedding of String.prototype.trim: strip whitespace from both ends. -/
def trimL (l : List Char) : List Char :=
  ((l.dropWhile Char.isWhitespace).reverse.dropWhile Char.isWhitespace).reverse

/-- Whether the second list is a leading segment of the first. -/
def leadsWith : List Char → List Char → Bool
  | _, [] => true
  | [], _ :: _ => false
  | a :: as, b :: bs => a == b && leadsWith as bs

/-- Embedding of String.prototype.includes: the needle occurs contiguously
somewhere in the haystack. -/
def strIncludes (hay needle : List Char) : Bool :=
  match hay with
  | [] => needle.isEmpty
  | _ :: t => leadsWith hay needle || strIncludes t needle

/-- One entry of the search index: node id and its lowercased text. -/
structure SearchEntry where
  id : String
  text : List Char
deriving DecidableEq

/-- Embedding of the searchIndex memo (lines 1634-1641): each computed node
contributes its id and its search text lowercased. -/
def buildIndex (raw : List (String × List Char)) : List SearchEntry :=
  raw.map fun r => ⟨r.1, lowerL r.2⟩

/-- Embedding of the results memo (lines 1643-1648): empty when search is off
or the trimmed lowercased query is shorter than searchMinChars, otherwise the
case-insensitive substring filter over the index, capped at 12 entries. -/
def results (searchable : Bool) (searchMinChars : Nat) (index : List SearchEntry)
    (query : List Char) : List SearchEntry :=
  if !searchable then []
  else
    let q := lowerL (trimL query)
    if q.length < searchMinChars then []
    else (index.filter fun r => strIncludes r.text q).take 12

/-- C7. Search-query characterization: with search enabled, a query whose
trimmed length is below searchMinChars yields no results whatever the index
holds; otherwise the results are the first at most 12 index entries, in index
order, whose lowercased text contains the lowercased trimmed query; and two
queries equal up to trimming and lowercasing (such as ABC and abc) yield
identical results over every index. -/
theorem search_query_characterization (minChars : Nat) (raw : List (String × List Char))
    (query : List Char) :
    ((trimL query).length < minChars →
      results true minChars (buildIndex raw) query = []) ∧
    (minChars ≤ (trimL query).length →
      results true minChars (buildIndex raw) query =
        ((buildIndex raw).filter fun r => strIncludes r.text (lowerL (trimL query))).take 12) ∧
    (∀ query2 : List Char, lowerL (trimL query2) = lowerL (trimL query) →
      results true minChars (buildIndex raw) query2 =
        results true minChars (buildIndex raw) query) := by
  have hlen : (lowerL (trimL query)).length = (trimL query).length := List.length_map _ _
  refine ⟨?_, ?_, ?_⟩
  · intro h
    simp only [results, Bool.not_true]
    rw [if_neg (by simp), if_pos (by rw [hlen]; exact h)]
  · intro h
    simp only [results, Bool.not_true]
    rw [if_neg (by simp), if_neg (by rw [hlen]; exact not_lt.mpr h)]
  · intro query2 heq
    simp only [results, heq]

/-- Witness for C7 at concrete inputs: minimum 2 characters, an index with
one entry of text AbC; the one-character query b is short and yields nothing,
the query bC (after lowering) matches, and queries ABC and abc coincide. -/
theorem search_query_characterization_witness :
    ((trimL ['b']).length < 2 ∧
      results true 2 (buildIndex [("n1", ['A', 'b', 'C'])]) ['b'] = []) ∧
    (2 ≤ (trimL ['b', 'C']).length ∧
      results true 2 (buildIndex [("n1", ['A', 'b', 'C'])]) ['b', 'C'] =
        ((buildIndex [("n1", ['A', 'b', 'C'])]).filter fun r =>
          strIncludes r.text (lowerL (trimL ['b', 'C']))).take 12) ∧
    (lowerL (trimL ['A', 'B', 'C']) = lowerL (trimL ['a', 'b', 'c']) ∧
      results true 2 (buildIndex [("n1", ['A', 'b', 'C'])]) ['A', 'B', 'C'] =
        results true 2 (buildIndex [("n1", ['A', 'b', 'C'])]) ['a', 'b', 'c']) :=
  ⟨⟨by decide, (search_query_characterization 2 [("n1", ['A', 'b', 'C'])] ['b']).1 (by decide)⟩,
    ⟨by decide,
      (search_query_characterization 2 [("n1", ['A', 'b', 'C'])] ['b', 'C']).2.1 (by decide)⟩,
    ⟨by decide,
      (search_query_characterization 2 [("n1", ['A', 'b', 'C'])] ['a', 'b', 'c']).2.2
        ['A', 'B', 'C'] (by decide)⟩⟩

/- ==========================================================================
   Scope and lineage (IntentTree.tsx lines 1193-1213, 1520-1557)
========================================================================== -/

/-- The parent lookup with the null fallback of the source
(parentById.get(id) ?? null). -/
def parentOf (nodes : List ComputedNode) (id : String) : Option String :=
  (mapGet (parentByIdOf nodes) id).getD none

/-- The children lookup with the empty fallback of the source
(childrenById.get(id) ?? []). -/
def childrenOf (nodes : List ComputedNode) (id : String) : List String :=
  (mapGet (childrenByIdOf nodes) id).getD []

/-- Embedding of collectSiblings (lines 1193-1204): the children of the
parent of the id, excluding the id itself; empty when the id is null, has no
parent, or the parent id is falsy (the empty string). JS Sets are embedded
as lists compared by membership. -/
def collectSiblings (nodes : List ComputedNode) (id : Option String) : List String :=
  match id with
  | none => []
  | some i =>
    match parentOf nodes i with
    | none => []
    | some p => if p = "" then [] else (childrenOf nodes p).filter (fun s => s ≠ i)

/-- Embedding of collectSiblingsChildren (lines 1206-1213): the union of the
children of each sibling. -/
def collectSiblingsChildren (nodes : List ComputedNode) (siblings : List String) :
    List String :=
  siblings.flatMap fun s => childrenOf nodes s

/-- Embedding of the siblings branch of the scopeSet memo (lines 1538-1546):
the selected key, its parent when truthy, the siblings and the children of
the siblings. -/
def scopeSiblings (nodes : List ComputedNode) (selectedKey : String) : List String :=
  let sibs := collectSiblings nodes (some selectedKey)
  let sibsChildren := collectSiblingsChildren nodes sibs
  let withParent :=
    match parentOf nodes selectedKey with
    | none => [selectedKey]
    | some p => if p = "" then [selectedKey] else [selectedKey, p]
  withParent ++ sibs ++ sibsChildren

/-- C6. Siblings-scope exactness: for a selected id present in the computed
node set whose recorded parent id is not the empty string, the scope set of
scope mode siblings contains exactly the selected id, its parent (when the
parent id is non-null), every sibling (other children of that parent), and
every child of every sibling, and nothing else. -/
theorem siblings_scope_exactness (nodes : List ComputedNode) (sel : String)
    (hsel : sel ∈ nodes.map (fun n => n.id)) (hpe : parentOf nodes sel ≠ some "") :
    ∀ x : String, x ∈ scopeSiblings nodes sel ↔
      x = sel ∨
      (∃ p, parentOf nodes sel = some p ∧
        (x = p ∨
          (x ∈ childrenOf nodes p ∧ x ≠ sel) ∨
          (∃ s, s ∈ childrenOf nodes p ∧ s ≠ sel ∧ x ∈ childrenOf nodes s))) := by
  intro x
  rcases hp : parentOf nodes sel with _ | p
  · simp [scopeSiblings, collectSiblings, collectSiblingsChildren, hp]
  · have hpne : p ≠ "" := by
      intro hcl
      exact hpe (hcl ▸ hp)
    simp only [scopeSiblings, collectSiblings, collectSiblingsChildren, hp, if_neg hpne]
    simp only [List.mem_append, List.mem_cons, List.not_mem_nil, or_false, List.mem_filter,
      List.mem_flatMap, Option.some.injEq, decide_eq_true_eq]
    aesop

/-- Witness for C6 at a concrete input: parent P with children S (selected)
and B, where B has one child C; the scope of S is, by membership, exactly
S, P, B and C. -/
theorem siblings_scope_exactness_witness :
    ("S" ∈ ([⟨"P", none, 0, 0, 0, 0, ["S", "B"]⟩, ⟨"S", some "P", 1, 0, 0, 0, []⟩,
        ⟨"B", some "P", 1, 1, 0, 0, ["C"]⟩, ⟨"C", some "B", 2, 0, 0, 0, []⟩] :
        List ComputedNode).map (fun n => n.id) ∧
      parentOf [⟨"P", none, 0, 0, 0, 0, ["S", "B"]⟩, ⟨"S", some "P", 1, 0, 0, 0, []⟩,
        ⟨"B", some "P", 1, 1, 0, 0, ["C"]⟩, ⟨"C", some "B", 2, 0, 0, 0, []⟩] "S" ≠ some "") ∧
    ("B" ∈ scopeSiblings [⟨"P", none, 0, 0, 0, 0, ["S", "B"]⟩, ⟨"S", some "P", 1, 0, 0, 0, []⟩,
        ⟨"B", some "P", 1, 1, 0, 0, ["C"]⟩, ⟨"C", some "B", 2, 0, 0, 0, []⟩] "S" ↔
      "B" = "S" ∨
      (∃ p, parentOf [⟨"P", none, 0, 0, 0, 0, ["S", "B"]⟩, ⟨"S", some "P", 1, 0, 0, 0, []⟩,
          ⟨"B", some "P", 1, 1, 0, 0, ["C"]⟩, ⟨"C", some "B", 2, 0, 0, 0, []⟩] "S" = some p ∧
        ("B" = p ∨
          ("B" ∈ childrenOf [⟨"P", none, 0, 0, 0, 0, ["S", "B"]⟩,
              ⟨"S", some "P", 1, 0, 0, 0, []⟩, ⟨"B", some "P", 1, 1, 0, 0, ["C"]⟩,
              ⟨"C", some "B", 2, 0, 0, 0, []⟩] p ∧ "B" ≠ "S") ∨
          (∃ s, s ∈ childrenOf [⟨"P", none, 0, 0, 0, 0, ["S", "B"]⟩,
              ⟨"S", some "P", 1, 0, 0, 0, []⟩, ⟨"B", some "P", 1, 1, 0, 0, ["C"]⟩,
              ⟨"C", some "B", 2, 0, 0, 0, []⟩] p ∧ s ≠ "S" ∧
            "B" ∈ childrenOf [⟨"P", none, 0, 0, 0, 0, ["S", "B"]⟩,
              ⟨"S", some "P", 1, 0, 0, 0, []⟩, ⟨"B", some "P", 1, 1, 0, 0, ["C"]⟩,
              ⟨"C", some "B", 2, 0, 0, 0, []⟩] s)))) :=
  ⟨⟨by decide, by decide⟩,
    siblings_scope_exactness [⟨"P", none, 0, 0, 0, 0, ["S", "B"]⟩,
      ⟨"S", some "P", 1, 0, 0, 0, []⟩, ⟨"B", some "P", 1, 1, 0, 0, ["C"]⟩,
      ⟨"C", some "B", 2, 0, 0, 0, []⟩] "S" (by decide) (by decide) "B"⟩

/- ==========================================================================
   Tree builder (IntentTree.tsx lines 727-779)
========================================================================== -/

/-- The external hierarchy: the engine reads nodes only through getId and
getChildren, embedded here as a rose tree carrying the (toKey-normalized)
string identifier. -/
inductive NodeT where
  | mk (id : String) (children : List NodeT)

/-- Embedding of the getId accessor. -/
def NodeT.idOf : NodeT → String
  | ⟨i, _⟩ => i

/-- Embedding of the getChildren accessor (null entries already dropped, as
the source filters them with isDefined before use). -/
def NodeT.childrenOf : NodeT → List NodeT
  | ⟨_, cs⟩ => cs

mutual
/-- Number of nodes of the tree, used as the termination measure for the
stack traversal. -/
def NodeT.size : NodeT → Nat
  | ⟨_, cs⟩ => 1 + sizeList cs
def sizeList : List NodeT → Nat
  | [] => 0
  | t :: ts => t.size + sizeList ts
end

theorem NodeT.size_pos (t : NodeT) : 0 < t.size := by
  rcases t with ⟨i, cs⟩
  simp [NodeT.size]

theorem sizeList_eq_sum (cs : List NodeT) : sizeList cs = (cs.map NodeT.size).sum := by
  induction cs with
  | nil => simp [sizeList]
  | cons t ts ih => simp [sizeList, ih]

theorem map_size_eta (cs : List NodeT) : (cs.map fun c => c.size) = cs.map NodeT.size := rfl

theorem size_le_of_mem {c : NodeT} {cs : List NodeT} (hc : c ∈ cs) : c.size ≤ sizeList cs := by
  induction cs with
  | nil => cases hc
  | cons t ts ih =>
    rcases List.mem_cons.mp hc with h | h
    · subst h
      simp [sizeList]
    · have := ih h
      simp [sizeList]
      omega

/-- Structural induction over the rose tree with the induction hypothesis
available for every child. -/
def NodeT.myInduction (P : NodeT → Prop)
    (h : ∀ i cs, (∀ c ∈ cs, P c) → P (NodeT.mk i cs)) : ∀ t, P t
  | NodeT.mk i cs => h i cs (fun c hc => NodeT.myInduction P h c)
termination_by t => t.size
decreasing_by
  have h1 := size_le_of_mem hc
  simp only [NodeT.size]
  omega

mutual
/-- All identifiers of the tree in pre-order, ignoring collapse. -/
def NodeT.ids : NodeT → List String
  | ⟨i, cs⟩ => i :: idsL cs
def idsL : List NodeT → List String
  | [] => []
  | t :: ts => t.ids ++ idsL ts
end

/-- One flat node of the traversal output (FlatNode of the source, the
opaque data field dropped). -/
structure FlatNode where
  id : String
  parentId : Option String
  depth : Nat
deriving DecidableEq

/-- One entry of the explicit traversal stack (lines 751-753). -/
structure StackEntry where
  node : NodeT
  parentId : Option String
  depth : Nat

/-- Total node count on the stack, the termination measure of the loop. -/
def stackSize (l : List StackEntry) : Nat := (l.map fun e => e.node.size).sum

/-- Embedding of the while loop of flattenTree (lines 755-773): pop an entry,
emit its flat node, record its visited child ids (none when collapsed), and
push the children in reverse so they pop in order. The stack is embedded
with its top at the head, so pushing the source children in reverse order
and then popping them equals prepending the child list. The loop returns the
flat node list and the childrenById writes in visit order. -/
def flattenLoop (collapsed : List String) :
    List StackEntry → List FlatNode × List (String × List String)
  | [] => ([], [])
  | cur :: rest =>
    (⟨cur.node.idOf, cur.parentId, cur.depth⟩ ::
      (flattenLoop collapsed
        (((if collapsed.contains cur.node.idOf then [] else cur.node.childrenOf).map
          fun c => StackEntry.mk c (some cur.node.idOf) (cur.depth + 1)) ++ rest)).1,
      (cur.node.idOf,
        (if collapsed.contains cur.node.idOf then [] else cur.node.childrenOf).map NodeT.idOf) ::
      (flattenLoop collapsed
        (((if collapsed.contains cur.node.idOf then [] else cur.node.childrenOf).map
          fun c => StackEntry.mk c (some cur.node.idOf) (cur.depth + 1)) ++ rest)).2)
termination_by l => stackSize l
decreasing_by
  all_goals
    have h1 : 0 < cur.node.size := NodeT.size_pos _
    simp only [stackSize, List.map_append, List.sum_append, List.map_map, Function.comp_def,
      List.map_cons, List.sum_cons]
    split
    · simp only [List.map_nil, List.sum_nil]
      omega
    · rcases hn : cur.node with ⟨i0, cs0⟩
      have h2 : (cs0.map NodeT.size).sum + 1 ≤ NodeT.size (NodeT.mk i0 cs0) := by
        simp only [NodeT.size, sizeList_eq_sum]
        omega
      simp only [hn, NodeT.childrenOf, map_size_eta]
      omega

/-- The packaged result of flattenTree (lines 743, 775-778): the flat node
list, the id-to-flat-position index and the id-to-child-ids index, the two
maps embedded as their write lists. -/
structure FlatPack where
  nodes : List FlatNode
  orderById : List (String × Nat)
  childrenById : List (String × List String)

/-- Embedding of flattenTree (lines 738-779): run the stack loop from the
root, then index every flat node by its position (lines 775-776). -/
def flattenTree (root : NodeT) (collapsed : List String) : FlatPack :=
  let r := flattenLoop collapsed [⟨root, none, 0⟩]
  { nodes := r.1,
    orderById := buildMap (r.1.enum.map fun p => (p.2.id, p.1)),
    childrenById := buildMap r.2 }

mutual
/-- Recursive reference formulation of the collapse-aware pre-order
traversal, proven equal to the stack loop below. -/
def flattenR (collapsed : List String) (parentId : Option String) (depth : Nat) :
    NodeT → List FlatNode × List (String × List String)
  | NodeT.mk i cs =>
    if collapsed.contains i then
      ([⟨i, parentId, depth⟩], [(i, [])])
    else
      (⟨i, parentId, depth⟩ :: (flattenRL collapsed i (depth + 1) cs).1,
        (i, cs.map NodeT.idOf) :: (flattenRL collapsed i (depth + 1) cs).2)
def flattenRL (collapsed : List String) (pid : String) (depth : Nat) :
    List NodeT → List FlatNode × List (String × List String)
  | [] => ([], [])
  | t :: ts =>
    ((flattenR collapsed (some pid) depth t).1 ++ (flattenRL collapsed pid depth ts).1,
      (flattenR collapsed (some pid) depth t).2 ++ (flattenRL collapsed pid depth ts).2)
end

theorem flattenRL_eq (collapsed : List String) (pid : String) (depth : Nat) (cs : List NodeT) :
    flattenRL collapsed pid depth cs =
      (cs.flatMap fun t => (flattenR collapsed (some pid) depth t).1,
        cs.flatMap fun t => (flattenR collapsed (some pid) depth t).2) := by
  induction cs with
  | nil => simp [flattenRL]
  | cons t ts ih => simp [flattenRL, ih]

/-- The stack loop computes, entry by entry, exactly the recursive traversal
of each stacked subtree. -/
theorem flattenLoop_eq (collapsed : List String) (stack : List StackEntry) :
    flattenLoop collapsed stack =
      (stack.flatMap fun e => (flattenR collapsed e.parentId e.depth e.node).1,
        stack.flatMap fun e => (flattenR collapsed e.parentId e.depth e.node).2) := by
  suffices h : ∀ (N : Nat) (stack : List StackEntry), stackSize stack ≤ N →
      flattenLoop collapsed stack =
        (stack.flatMap fun e => (flattenR collapsed e.parentId e.depth e.node).1,
          stack.flatMap fun e => (flattenR collapsed e.parentId e.depth e.node).2) by
    exact h (stackSize stack) stack le_rfl
  intro N
  induction N with
  | zero =>
    intro stack hle
    match stack with
    | [] => simp [flattenLoop]
    | cur :: rest =>
      exfalso
      have h1 : 0 < cur.node.size := NodeT.size_pos _
      simp only [stackSize, List.map_cons, List.sum_cons, Nat.le_zero] at hle
      omega
  | succ N ih =>
    intro stack hle
    match stack with
    | [] => simp [flattenLoop]
    | ⟨tn, pid, dep⟩ :: rest =>
      rcases tn with ⟨i, cs⟩
      simp only [stackSize, List.map_cons, List.sum_cons] at hle
      by_cases hc : collapsed.contains i
      · have hrest : stackSize rest ≤ N := by
          have h1 : 0 < NodeT.size (NodeT.mk i cs) := NodeT.size_pos _
          simp only [stackSize]
          omega
        have hm : i ∈ collapsed := by simpa using hc
        simp only [flattenLoop, NodeT.idOf, NodeT.childrenOf, hc, if_true, List.map_nil,
          List.nil_append, ih rest hrest]
        simp [flattenR, hm]
      · have hrest : stackSize ((cs.map
            fun c => StackEntry.mk c (some i) (dep + 1)) ++ rest) ≤ N := by
          have h2 : ((cs.map NodeT.size).sum) + 1 ≤ NodeT.size (NodeT.mk i cs) := by
            simp only [NodeT.size, sizeList_eq_sum]
            omega
          simp only [stackSize, List.map_append, List.sum_append, List.map_map,
            Function.comp_def, map_size_eta]
          omega
        have hm : i ∉ collapsed := by simpa using hc
        simp only [flattenLoop, NodeT.idOf, NodeT.childrenOf, hc, Bool.false_eq_true,
          if_false, ih _ hrest]
        simp [flattenR, hm, flattenRL_eq, List.flatMap_append, List.flatMap_map,
          Function.comp_def]

/-- flattenTree emits the flat nodes of the recursive traversal of the root. -/
theorem flattenTree_nodes (root : NodeT) (collapsed : List String) :
    (flattenTree root collapsed).nodes = (flattenR collapsed none 0 root).1 := by
  simp [flattenTree, flattenLoop_eq]

/-- flattenTree builds childrenById from the child writes of the recursive
traversal of the root. -/
theorem flattenTree_childrenById (root : NodeT) (collapsed : List String) :
    (flattenTree root collapsed).childrenById = buildMap (flattenR collapsed none 0 root).2 := by
  simp [flattenTree, flattenLoop_eq]

mutual
/-- Reachability in the collapse-pruned traversal: the id is the root, or the
root is not collapsed and the id is reachable in one of its children. This is
the precise sense in which a node is reachable from the root given the
collapsed set. -/
def reachable (collapsed : List String) (a : String) : NodeT → Bool
  | ⟨i, cs⟩ => a == i || (!collapsed.contains i && reachableL collapsed a cs)
def reachableL (collapsed : List String) (a : String) : List NodeT → Bool
  | [] => false
  | t :: ts => reachable collapsed a t || reachableL collapsed a ts
end

mutual
/-- The subtree rooted at the first pre-order node carrying the given id. -/
def subtreeWithId (a : String) : NodeT → Option NodeT
  | ⟨i, cs⟩ => if i = a then some ⟨i, cs⟩ else subtreeWithIdL a cs
def subtreeWithIdL (a : String) : List NodeT → Option NodeT
  | [] => none
  | t :: ts =>
    match subtreeWithId a t with
    | some s => some s
    | none => subtreeWithIdL a ts
end

/-- The strict descendants of the node with the given id: every id inside the
children subtrees of its subtree. -/
def strictDescIds (t : NodeT) (a : String) : List String :=
  match subtreeWithId a t with
  | none => []
  | some s => idsL s.childrenOf

theorem flattenR_pos (c : List String) (p : Option String) (d : Nat) (i : String)
    (cs : List NodeT) (hc : i ∈ c) :
    flattenR c p d (NodeT.mk i cs) = ([⟨i, p, d⟩], [(i, [])]) := by
  simp [flattenR, hc]

theorem flattenR_neg (c : List String) (p : Option String) (d : Nat) (i : String)
    (cs : List NodeT) (hc : i ∉ c) :
    flattenR c p d (NodeT.mk i cs) =
      (⟨i, p, d⟩ :: (flattenRL c i (d + 1) cs).1,
        (i, cs.map NodeT.idOf) :: (flattenRL c i (d + 1) cs).2) := by
  simp [flattenR, hc]

theorem reachable_mk (c : List String) (a i : String) (cs : List NodeT) :
    reachable c a (NodeT.mk i cs) = (a == i || (!c.contains i && reachableL c a cs)) := by
  simp [reachable]

theorem flattenRL_keys (c : List String) (pid : String) (d : Nat) (cs : List NodeT)
    (h : ∀ t ∈ cs, ((flattenR c (some pid) d t).2.map Prod.fst)
      = ((flattenR c (some pid) d t).1.map FlatNode.id)) :
    ((flattenRL c pid d cs).2.map Prod.fst) = ((flattenRL c pid d cs).1.map FlatNode.id) := by
  induction cs with
  | nil => simp [flattenRL]
  | cons t ts ih =>
    simp only [flattenRL, List.map_append]
    rw [h t (by simp), ih (fun u hu => h u (List.mem_cons_of_mem _ hu))]

/-- The keys of the childrenById writes are exactly the emitted flat ids. -/
theorem flattenR_keys (c : List String) (t : NodeT) (p : Option String) (d : Nat) :
    ((flattenR c p d t).2.map Prod.fst) = ((flattenR c p d t).1.map FlatNode.id) := by
  induction t using NodeT.myInduction generalizing p d with
  | h i cs ih =>
    by_cases hc : i ∈ c
    · rw [flattenR_pos c p d i cs hc]
      simp
    · rw [flattenR_neg c p d i cs hc]
      simp only [List.map_cons]
      rw [flattenRL_keys c i (d + 1) cs (fun u hu => ih u hu (some i) (d + 1))]

theorem flattenRL_ids_sublist (c : List String) (pid : String) (d : Nat) (cs : List NodeT)
    (h : ∀ t ∈ cs, List.Sublist ((flattenR c (some pid) d t).1.map FlatNode.id) t.ids) :
    List.Sublist ((flattenRL c pid d cs).1.map FlatNode.id) (idsL cs) := by
  induction cs with
  | nil => simp [flattenRL, idsL]
  | cons t ts ih =>
    simp only [flattenRL, List.map_append, idsL]
    exact (h t (by simp)).append (ih fun u hu => h u (List.mem_cons_of_mem _ hu))

/-- The flat output ids of the traversal are a sublist of the full pre-order
id list: collapsing only removes whole contiguous subtree segments. -/
theorem flattenR_ids_sublist (c : List String) (t : NodeT) (p : Option String) (d : Nat) :
    List.Sublist ((flattenR c p d t).1.map FlatNode.id) t.ids := by
  induction t using NodeT.myInduction generalizing p d with
  | h i cs ih =>
    by_cases hc : i ∈ c
    · rw [flattenR_pos c p d i cs hc]
      simp only [List.map_cons, List.map_nil, NodeT.ids]
      exact (List.nil_sublist _).cons₂ _
    · rw [flattenR_neg c p d i cs hc]
      simp only [List.map_cons, NodeT.ids]
      exact (flattenRL_ids_sublist c i (d + 1) cs
        (fun u hu => ih u hu (some i) (d + 1))).cons₂ _

theorem flattenRL_mem_iff (c : List String) (pid : String) (d : Nat) (cs : List NodeT)
    (a : String)
    (h : ∀ t ∈ cs, ∀ (p : Option String) (d' : Nat),
      (a ∈ (flattenR c p d' t).1.map FlatNode.id) ↔ reachable c a t = true) :
    (a ∈ (flattenRL c pid d cs).1.map FlatNode.id) ↔ reachableL c a cs = true := by
  induction cs with
  | nil => simp [flattenRL, reachableL]
  | cons t ts ih =>
    simp only [flattenRL, List.map_append, List.mem_append, reachableL, Bool.or_eq_true]
    rw [h t (by simp) (some pid) d, ih (fun u hu => h u (List.mem_cons_of_mem _ hu))]

/-- An id occurs in the flat output exactly when it is reachable from the
root given the collapsed set. -/
theorem flattenR_mem_iff (c : List String) (a : String) (t : NodeT) (p : Option String)
    (d : Nat) : (a ∈ (flattenR c p d t).1.map FlatNode.id) ↔ reachable c a t = true := by
  induction t using NodeT.myInduction generalizing p d with
  | h i cs ih =>
    by_cases hc : i ∈ c
    · have hcb : c.contains i = true := by simpa using hc
      rw [flattenR_pos c p d i cs hc, reachable_mk]
      simp [hcb]
      intro h
      exact fun _ => absurd hc h
    · have hcb : c.contains i = false := by simpa using hc
      rw [flattenR_neg c p d i cs hc, reachable_mk]
      simp only [List.map_cons, List.mem_cons, hcb, Bool.not_false, Bool.true_and,
        Bool.or_eq_true, beq_iff_eq]
      rw [flattenRL_mem_iff c i (d + 1) cs a (fun u hu => ih u hu)]

/-- Whatever is reachable is an id of the tree. -/
theorem mem_ids_of_reachable (c : List String) (a : String) (t : NodeT)
    (h : reachable c a t = true) : a ∈ t.ids :=
  (flattenR_ids_sublist c t none 0).subset ((flattenR_mem_iff c a t none 0).mpr h)

theorem mem_idsL_of_reachableL (c : List String) (a : String) (cs : List NodeT)
    (h : reachableL c a cs = true) : a ∈ idsL cs := by
  have hm := (flattenRL_mem_iff c "" 0 cs a
    (fun u _ p d => flattenR_mem_iff c a u p d)).mpr h
  exact (flattenRL_ids_sublist c "" 0 cs
    (fun u _ => flattenR_ids_sublist c u (some "") 0)).subset hm

theorem subtreeWithIdL_spec (a : String) (cs : List NodeT) (s : NodeT)
    (h : ∀ t ∈ cs, ∀ s', subtreeWithId a t = some s' →
      s'.idOf = a ∧ ∀ x ∈ s'.ids, x ∈ t.ids) :
    subtreeWithIdL a cs = some s → s.idOf = a ∧ ∀ x ∈ s.ids, x ∈ idsL cs := by
  induction cs with
  | nil => intro hcl; cases hcl
  | cons t ts ih =>
    intro hst
    simp only [subtreeWithIdL] at hst
    rcases hsub : subtreeWithId a t with _ | s'
    · rw [hsub] at hst
      obtain ⟨h1, h2⟩ := ih (fun u hu => h u (List.mem_cons_of_mem _ hu)) hst
      exact ⟨h1, fun x hx => by
        simp only [idsL, List.mem_append]
        exact Or.inr (h2 x hx)⟩
    · rw [hsub] at hst
      have hse : s' = s := by simpa using hst
      rw [hse] at hsub
      obtain ⟨h1, h2⟩ := h t (by simp) s hsub
      exact ⟨h1, fun x hx => by
        simp only [idsL, List.mem_append]
        exact Or.inl (h2 x hx)⟩

/-- The subtree found for an id carries that id and its ids are among the
ids of the whole tree. -/
theorem subtreeWithId_spec (a : String) (t : NodeT) :
    ∀ s : NodeT, subtreeWithId a t = some s → s.idOf = a ∧ ∀ x ∈ s.ids, x ∈ t.ids := by
  induction t using NodeT.myInduction with
  | h i cs ih =>
    intro s hst
    simp only [subtreeWithId] at hst
    by_cases hia : i = a
    · rw [if_pos hia] at hst
      obtain rfl : NodeT.mk i cs = s := by simpa using hst
      exact ⟨hia, fun x hx => hx⟩
    · rw [if_neg hia] at hst
      obtain ⟨h1, h2⟩ := subtreeWithIdL_spec a cs s (fun u hu s' hs' => ih u hu s' hs') hst
      exact ⟨h1, fun x hx => by
        simp only [NodeT.ids, List.mem_cons]
        exact Or.inr (h2 x hx)⟩

theorem reachableL_strictDesc_false (c : List String) (a b : String) (cs : List NodeT)
    (hndL : (idsL cs).Nodup) (ha : a ∈ c) (s : NodeT)
    (hst : subtreeWithIdL a cs = some s) (hb : b ∈ idsL s.childrenOf)
    (ihp : ∀ u ∈ cs, u.ids.Nodup → a ∈ c → ∀ b' ∈ strictDescIds u a,
      reachable c b' u = false) :
    reachableL c b cs = false := by
  induction cs with
  | nil => cases hst
  | cons t ts ih =>
    have hnds : t.ids.Nodup ∧ (idsL ts).Nodup ∧ ∀ x ∈ t.ids, x ∉ idsL ts := by
      have := hndL
      simp only [idsL, List.nodup_append] at this
      exact ⟨this.1, this.2.1, fun x hx => this.2.2 hx⟩
    have hbs : b ∈ s.ids := by
      rcases s with ⟨si, scs⟩
      simp only [NodeT.childrenOf] at hb
      simp only [NodeT.ids, List.mem_cons]
      exact Or.inr hb
    simp only [subtreeWithIdL] at hst
    simp only [reachableL, Bool.or_eq_false_iff]
    rcases hsub : subtreeWithId a t with _ | s'
    · rw [hsub] at hst
      have hbts : b ∈ idsL ts :=
        (subtreeWithIdL_spec a ts s (fun u hu s' hs' => subtreeWithId_spec a u s' hs') hst).2
          b hbs
      constructor
      · rcases hr : reachable c b t with _ | _
        · rfl
        · exact absurd (mem_ids_of_reachable c b t hr) (fun hm => hnds.2.2 b hm hbts)
      · exact ih hnds.2.1 hst (fun u hu => ihp u (List.mem_cons_of_mem _ hu))
    · rw [hsub] at hst
      have hse : s' = s := by simpa using hst
      rw [hse] at hsub
      have hbt : b ∈ t.ids := (subtreeWithId_spec a t s hsub).2 b hbs
      constructor
      · have hdesc : b ∈ strictDescIds t a := by
          simp only [strictDescIds, hsub]
          exact hb
        exact ihp t (by simp) hnds.1 ha b hdesc
      · rcases hr : reachableL c b ts with _ | _
        · rfl
        · exact absurd (mem_idsL_of_reachableL c b ts hr) (fun hm => hnds.2.2 b hbt hm)

/-- With unique ids, no strict descendant of a collapsed node is reachable. -/
theorem reachable_strictDesc_false (c : List String) (a : String) (t : NodeT) :
    t.ids.Nodup → a ∈ c → ∀ b ∈ strictDescIds t a, reachable c b t = false := by
  induction t using NodeT.myInduction with
  | h i cs ih =>
    intro hnd ha b hb
    have hin : i ∉ idsL cs ∧ (idsL cs).Nodup := by
      have := hnd
      simp only [NodeT.ids, List.nodup_cons] at this
      exact this
    simp only [strictDescIds, subtreeWithId] at hb
    by_cases hia : i = a
    · rw [if_pos hia] at hb
      simp only [NodeT.childrenOf] at hb
      have hcon : c.contains i = true := by
        subst hia
        simpa using ha
      simp only [reachable, hcon, Bool.not_true, Bool.false_and, Bool.or_false,
        beq_eq_false_iff_ne, ne_eq]
      intro hcl
      exact hin.1 (hcl ▸ hb)
    · rw [if_neg hia] at hb
      rcases hst : subtreeWithIdL a cs with _ | s
      · rw [hst] at hb
        cases hb
      · rw [hst] at hb
        have hbs : b ∈ s.ids := by
          rcases s with ⟨si, scs⟩
          simp only [NodeT.childrenOf] at hb
          simp only [NodeT.ids, List.mem_cons]
          exact Or.inr hb
        have hbcs : b ∈ idsL cs :=
          (subtreeWithIdL_spec a cs s (fun u hu s' hs' => subtreeWithId_spec a u s' hs') hst).2
            b hbs
        have hrl : reachableL c b cs = false :=
          reachableL_strictDesc_false c a b cs hin.2 ha s hst hb
            (fun u hu hndu hau b' hb' => ih u hu hndu hau b' hb')

        simp only [reachable, hrl, Bool.and_false, Bool.or_false, beq_eq_false_iff_ne, ne_eq]
        intro hcl
        exact hin.1 (hcl ▸ hbcs)

theorem flattenRL_collapsed_val (c : List String) (pid : String) (d : Nat) (cs : List NodeT)
    (h : ∀ t ∈ cs, ∀ (p : Option String) (d' : Nat) (i : String) (v : List String),
      (i, v) ∈ (flattenR c p d' t).2 → i ∈ c → v = []) :
    ∀ (i : String) (v : List String), (i, v) ∈ (flattenRL c pid d cs).2 → i ∈ c → v = [] := by
  induction cs with
  | nil => intro i v hv; simp [flattenRL] at hv
  | cons t ts ih =>
    intro i v hv hic
    simp only [flattenRL, List.mem_append] at hv
    rcases hv with hv | hv
    · exact h t (by simp) (some pid) d i v hv hic
    · exact ih (fun u hu => h u (List.mem_cons_of_mem _ hu)) i v hv hic

/-- Every childrenById write whose key is collapsed records the empty list. -/
theorem flattenR_collapsed_val (c : List String) (t : NodeT) :
    ∀ (p : Option String) (d : Nat) (i : String) (v : List String),
      (i, v) ∈ (flattenR c p d t).2 → i ∈ c → v = [] := by
  induction t using NodeT.myInduction with
  | h i0 cs ih =>
    intro p d i v hv hic
    by_cases hc : i0 ∈ c
    · rw [flattenR_pos c p d i0 cs hc] at hv
      obtain ⟨-, rfl⟩ : i = i0 ∧ v = [] := by simpa using hv
      rfl
    · rw [flattenR_neg c p d i0 cs hc] at hv
      simp only [List.mem_cons] at hv
      rcases hv with hv | hv
      · obtain ⟨rfl, -⟩ : i = i0 ∧ v = cs.map NodeT.idOf := by simpa using hv
        exact absurd hic hc
      · exact flattenRL_collapsed_val c i0 (d + 1) cs (fun u hu => ih u hu) i v hv hic

/-- Looking up a key present among pairwise distinct keys returns the value
written for it. -/
theorem mapGet_buildMap_mem {α : Type} (pairs : List (String × α)) (a : String)
    (hnd : (pairs.map Prod.fst).Nodup) (ha : a ∈ pairs.map Prod.fst) :
    ∃ v, mapGet (buildMap pairs) a = some v ∧ (a, v) ∈ pairs := by
  rw [mapGet_buildMap_of_nodup pairs a (by simpa using hnd)]
  obtain ⟨e, he, hea⟩ := List.mem_map.mp ha
  have hsome : (pairs.find? fun x => x.1 == a).isSome :=
    List.find?_isSome.mpr ⟨e, he, by simp [hea]⟩
  rcases hfind : pairs.find? fun x => x.1 == a with _ | e'
  · rw [hfind] at hsome
    cases hsome
  · rcases e' with ⟨e1, e2⟩
    have he1 : e1 = a := by simpa using List.find?_some hfind
    have hem : (e1, e2) ∈ pairs := List.mem_of_find?_eq_some hfind
    rw [hfind]
    refine ⟨e2, rfl, ?_⟩
    rw [← he1]
    exact hem

/-- C2. Collapse correctness of flatten: for a tree with unique ids, every
collapsed id reachable from the root appears exactly once in the flat output,
none of its strict descendants appear, and childrenIndex maps it to the empty
list; concretely, for A with children B and C where B has child D and B is
collapsed, the flat output is A, B, C and childrenIndex of B is empty. -/
theorem collapse_correctness (t : NodeT) (collapsed : List String) (a : String)
    (hnd : t.ids.Nodup) (hcol : a ∈ collapsed) (hr : reachable collapsed a t = true) :
    ((flattenTree t collapsed).nodes.map FlatNode.id).count a = 1 ∧
    (∀ b ∈ strictDescIds t a, b ∉ (flattenTree t collapsed).nodes.map FlatNode.id) ∧
    mapGet (flattenTree t collapsed).childrenById a = some [] ∧
    ((flattenTree (NodeT.mk ("A") [NodeT.mk ("B") [NodeT.mk ("D") []], NodeT.mk ("C") []])
        ["B"]).nodes.map FlatNode.id = ["A", "B", "C"] ∧
      mapGet (flattenTree (NodeT.mk ("A") [NodeT.mk ("B") [NodeT.mk ("D") []],
        NodeT.mk ("C") []]) ["B"]).childrenById ("B") = some []) := by
  rw [flattenTree_nodes, flattenTree_childrenById]
  have hnodup : ((flattenR collapsed none 0 t).1.map FlatNode.id).Nodup :=
    hnd.sublist (flattenR_ids_sublist collapsed t none 0)
  have hmem : a ∈ (flattenR collapsed none 0 t).1.map FlatNode.id :=
    (flattenR_mem_iff collapsed a t none 0).mpr hr
  refine ⟨List.count_eq_one_of_mem hnodup hmem, ?_, ?_, ?_⟩
  · intro b hb hbmem
    have h1 := (flattenR_mem_iff collapsed b t none 0).mp hbmem
    have h2 := reachable_strictDesc_false collapsed a t hnd hcol b hb
    rw [h1] at h2
    cases h2
  · have hkeys : ((flattenR collapsed none 0 t).2.map Prod.fst)
        = ((flattenR collapsed none 0 t).1.map FlatNode.id) :=
      flattenR_keys collapsed t none 0
    obtain ⟨v, hv, hvm⟩ := mapGet_buildMap_mem (flattenR collapsed none 0 t).2 a
      (by rw [hkeys]; exact hnodup) (by rw [hkeys]; exact hmem)
    rw [hv, flattenR_collapsed_val collapsed t none 0 a v hvm hcol]
  · rw [flattenTree_nodes, flattenTree_childrenById]
    constructor
    · decide
    · decide

/-- Witness for C2 at the example of the claim: tree A with children B and C,
B with child D, B collapsed. -/
theorem collapse_correctness_witness :
    ((NodeT.mk ("A") [NodeT.mk ("B") [NodeT.mk ("D") []], NodeT.mk ("C") []]).ids.Nodup ∧
      ("B" : String) ∈ ["B"] ∧
      reachable ["B"] ("B")
        (NodeT.mk ("A") [NodeT.mk ("B") [NodeT.mk ("D") []], NodeT.mk ("C") []]) = true) ∧
    (((flattenTree (NodeT.mk ("A") [NodeT.mk ("B") [NodeT.mk ("D") []], NodeT.mk ("C") []])
        ["B"]).nodes.map FlatNode.id).count ("B") = 1 ∧
      (∀ b ∈ strictDescIds (NodeT.mk ("A") [NodeT.mk ("B") [NodeT.mk ("D") []],
          NodeT.mk ("C") []]) ("B"),
        b ∉ (flattenTree (NodeT.mk ("A") [NodeT.mk ("B") [NodeT.mk ("D") []],
          NodeT.mk ("C") []]) ["B"]).nodes.map FlatNode.id) ∧
      mapGet (flattenTree (NodeT.mk ("A") [NodeT.mk ("B") [NodeT.mk ("D") []],
        NodeT.mk ("C") []]) ["B"]).childrenById ("B") = some [] ∧
      ((flattenTree (NodeT.mk ("A") [NodeT.mk ("B") [NodeT.mk ("D") []], NodeT.mk ("C") []])
          ["B"]).nodes.map FlatNode.id = ["A", "B", "C"] ∧
        mapGet (flattenTree (NodeT.mk ("A") [NodeT.mk ("B") [NodeT.mk ("D") []],
          NodeT.mk ("C") []]) ["B"]).childrenById ("B") = some [])) :=
  ⟨⟨by decide, by decide, by decide⟩,
    collapse_correctness (NodeT.mk ("A") [NodeT.mk ("B") [NodeT.mk ("D") []],
      NodeT.mk ("C") []]) ["B"] ("B") (by decide) (by decide) (by decide)⟩

/- ==========================================================================
   Layout engine (IntentTree.tsx lines 781-872)
========================================================================== -/

/-- The convenient record form of flattenTree in terms of the recursive
traversal; all three fields follow from the loop equivalence. -/
theorem flattenTree_eq (root : NodeT) (collapsed : List String) :
    flattenTree root collapsed =
      { nodes := (flattenR collapsed none 0 root).1,
        orderById := buildMap (((flattenR collapsed none 0 root).1).enum.map
          fun p => (p.2.id, p.1)),
        childrenById := buildMap (flattenR collapsed none 0 root).2 } := by
  simp [flattenTree, flattenLoop_eq]

/-- The two orientations of the layout. -/
inductive IntentTreeOrientation where
  | vertical
  | horizontal
deriving DecidableEq

/-- The orderById lookup with fallback 0 (line 810). -/
def orderGet (orderById : List (String × Nat)) (i : String) : Nat :=
  (mapGet orderById i).getD 0

/-- The sorted per-depth sibling group of computeAutoLayout (lines 802-812):
the byDepth map groups the flat list by depth in traversal order, which
equals filtering the flat list by that depth; each group is then sorted by
the overall traversal position. Array.prototype.sort is embedded as
insertion sort, a deterministic comparison sort. -/
def sortedSibs (flat : List FlatNode) (orderById : List (String × Nat)) (d : Nat) :
    List FlatNode :=
  (flat.filter fun n => n.depth == d).insertionSort
    fun a b => orderGet orderById a.id ≤ orderGet orderById b.id

/-- Embedding of computeAutoLayout (lines 781-841): each flat node receives
the 0-based index of its id inside its sorted depth group (0 when the
findIndex misses, line 818), and the layered position formula. -/
def computeAutoLayout (flat : List FlatNode) (orderById : List (String × Nat))
    (childrenById : List (String × List String)) (orientation : IntentTreeOrientation)
    (nodeWidth nodeHeight levelGap siblingGap : ℚ) : List ComputedNode :=
  flat.map fun n =>
    let sibs := sortedSibs flat orderById n.depth
    let idx := sibs.findIdx fun x => x.id == n.id
    let order := if idx < sibs.length then idx else 0
    let primary := (n.depth : ℚ) *
      (if orientation = IntentTreeOrientation.vertical then nodeHeight + levelGap
        else nodeWidth + levelGap)
    let secondary := (order : ℚ) *
      (if orientation = IntentTreeOrientation.vertical then nodeWidth + siblingGap
        else nodeHeight + siblingGap)
    { id := n.id, parentId := n.parentId, depth := n.depth, order := order,
      x := if orientation = IntentTreeOrientation.vertical then secondary else primary,
      y := if orientation = IntentTreeOrientation.vertical then primary else secondary,
      childrenIds := (mapGet childrenById n.id).getD [] }

/-- Embedding of computeCustomLayout (lines 843-872): the order is the
overall flat-traversal position of the node (not a per-depth rank), and the
position comes from the caller-supplied function. -/
def computeCustomLayout (flat : List FlatNode) (orderById : List (String × Nat))
    (childrenById : List (String × List String))
    (getNodePosition : String → Nat → Nat → Option String → ℚ × ℚ) : List ComputedNode :=
  flat.map fun n =>
    let order := (mapGet orderById n.id).getD 0
    { id := n.id, parentId := n.parentId, depth := n.depth, order := order,
      x := (getNodePosition n.id n.depth order n.parentId).1,
      y := (getNodePosition n.id n.depth order n.parentId).2,
      childrenIds := (mapGet childrenById n.id).getD [] }

/-- Mapping each element to its findIdx position over a list with pairwise
distinct ids enumerates 0, 1, ... in order. -/
theorem findIdx_map_self (l : List FlatNode) (hnd : (l.map FlatNode.id).Nodup) :
    (l.map fun n => l.findIdx fun x => x.id == n.id) = List.range l.length := by
  induction l with
  | nil => simp
  | cons a t ih =>
    have hnd' := hnd
    simp only [List.map_cons, List.nodup_cons] at hnd'
    have hhead : ((a :: t).findIdx fun x => x.id == a.id) = 0 := by
      simp [List.findIdx_cons]
    have htail : (t.map fun n => (a :: t).findIdx fun x => x.id == n.id)
        = t.map fun n => (t.findIdx fun x => x.id == n.id) + 1 := by
      apply List.map_congr_left
      intro n hn
      have hne : (a.id == n.id) = false := by
        have hmm : n.id ∈ t.map FlatNode.id := List.mem_map_of_mem _ hn
        simp only [beq_eq_false_iff_ne, ne_eq]
        intro hcl
        exact hnd'.1 (hcl ▸ hmm)
      simp [List.findIdx_cons, hne]
    have hsucc : (t.map fun n => (t.findIdx fun x => x.id == n.id) + 1)
        = (t.map fun n => t.findIdx fun x => x.id == n.id).map Nat.succ := by
      simp [List.map_map, Function.comp_def, Nat.succ_eq_add_one]
    simp only [List.map_cons, hhead, htail, hsucc, ih hnd'.2, List.length_cons,
      List.range_succ_eq_map]

/-- The guarded findIdx orders of any permutation of a duplicate-free group
enumerate exactly 0 .. count-1. -/
theorem orders_perm_core (l s : List FlatNode) (hperm : List.Perm s l)
    (hnd : (l.map FlatNode.id).Nodup) :
    List.Perm
      (l.map fun n =>
        if (s.findIdx fun x => x.id == n.id) < s.length
        then s.findIdx fun x => x.id == n.id else 0)
      (List.range l.length) := by
  have hnds : (s.map FlatNode.id).Nodup := ((hperm.map FlatNode.id).nodup_iff).mpr hnd
  have hguard : ∀ n ∈ s, ((s.findIdx fun x => x.id == n.id) < s.length) := by
    intro n hn
    exact List.findIdx_lt_length_of_exists ⟨n, hn, by simp⟩
  have h1 : List.Perm
      (l.map fun n =>
        if (s.findIdx fun x => x.id == n.id) < s.length
        then s.findIdx fun x => x.id == n.id else 0)
      (s.map fun n =>
        if (s.findIdx fun x => x.id == n.id) < s.length
        then s.findIdx fun x => x.id == n.id else 0) :=
    (hperm.map _).symm
  have h2 : (s.map fun n =>
      if (s.findIdx fun x => x.id == n.id) < s.length
      then s.findIdx fun x => x.id == n.id else 0)
      = s.map fun n => s.findIdx fun x => x.id == n.id := by
    apply List.map_congr_left
    intro n hn
    rw [if_pos (hguard n hn)]
  rw [h2] at h1
  rw [findIdx_map_self s hnds] at h1
  have h3 : List.range s.length = List.range l.length := by rw [hperm.length_eq]
  rw [h3] at h1
  exact h1

/-- Auto-mode order contiguity over an arbitrary flat list with unique ids:
at every depth the computed orders are a permutation of 0 .. count-1. -/
theorem computeAutoLayout_order_contiguity (flat : List FlatNode)
    (orderById : List (String × Nat)) (childrenById : List (String × List String))
    (orientation : IntentTreeOrientation) (nodeWidth nodeHeight levelGap siblingGap : ℚ)
    (hnd : (flat.map FlatNode.id).Nodup) (d : Nat) :
    List.Perm
      (((computeAutoLayout flat orderById childrenById orientation nodeWidth nodeHeight
        levelGap siblingGap).filter fun n => n.depth == d).map fun n => n.order)
      (List.range ((flat.filter fun n => n.depth == d).length)) := by
  have hfm : ((computeAutoLayout flat orderById childrenById orientation nodeWidth nodeHeight
      levelGap siblingGap).filter fun n => n.depth == d).map (fun n => n.order)
      = (flat.filter fun n => n.depth == d).map fun n =>
          if ((sortedSibs flat orderById n.depth).findIdx fun x => x.id == n.id)
              < (sortedSibs flat orderById n.depth).length
          then (sortedSibs flat orderById n.depth).findIdx fun x => x.id == n.id else 0 := by
    unfold computeAutoLayout
    rw [List.filter_map, List.map_map]
    rfl
  rw [hfm]
  have hcongr : (flat.filter fun n => n.depth == d).map (fun n =>
      if ((sortedSibs flat orderById n.depth).findIdx fun x => x.id == n.id)
          < (sortedSibs flat orderById n.depth).length
      then (sortedSibs flat orderById n.depth).findIdx fun x => x.id == n.id else 0)
      = (flat.filter fun n => n.depth == d).map fun n =>
        if ((sortedSibs flat orderById d).findIdx fun x => x.id == n.id)
            < (sortedSibs flat orderById d).length
        then (sortedSibs flat orderById d).findIdx fun x => x.id == n.id else 0 := by
    apply List.map_congr_left
    intro n hn
    have hd : n.depth = d := by simpa using (List.mem_filter.mp hn).2
    rw [hd]
  rw [hcongr]
  have hndg : ((flat.filter fun n => n.depth == d).map FlatNode.id).Nodup :=
    hnd.sublist ((List.filter_sublist flat).map FlatNode.id)
  exact orders_perm_core (flat.filter fun n => n.depth == d) (sortedSibs flat orderById d)
    (List.perm_insertionSort _ _) hndg

/-- C3 counterexample: for the two-node tree A with child B, custom layout
assigns B the order 1 (its overall traversal position), so the orders at
depth 1 are [1], not a permutation of 0 .. 0; the claim fails for the custom
layout mode. -/
theorem order_contiguity_cex :
    ¬ List.Perm
      (((computeCustomLayout (flattenTree (NodeT.mk ("A") [NodeT.mk ("B") []]) []).nodes
        (flattenTree (NodeT.mk ("A") [NodeT.mk ("B") []]) []).orderById
        (flattenTree (NodeT.mk ("A") [NodeT.mk ("B") []]) []).childrenById
        (fun _ _ _ _ => (0, 0))).filter fun n => n.depth == 1).map fun n => n.order)
      (List.range (((computeCustomLayout
        (flattenTree (NodeT.mk ("A") [NodeT.mk ("B") []]) []).nodes
        (flattenTree (NodeT.mk ("A") [NodeT.mk ("B") []]) []).orderById
        (flattenTree (NodeT.mk ("A") [NodeT.mk ("B") []]) []).childrenById
        (fun _ _ _ _ => (0, 0))).filter fun n => n.depth == 1).length)) := by
  rw [flattenTree_eq]
  decide

/-- C3 (amended). Order contiguity holds in auto layout mode: for every tree
with unique ids and every depth, the computed orders at that depth are
exactly 0 .. count-1 with no gaps or repeats. In custom layout mode the
order field is the overall flat-traversal position of the node, so per-depth
contiguity fails there, as the counterexample shows. -/
theorem order_contiguity (root : NodeT) (collapsed : List String)
    (orientation : IntentTreeOrientation) (nodeWidth nodeHeight levelGap siblingGap : ℚ)
    (hnd : root.ids.Nodup) (d : Nat) :
    List.Perm
      (((computeAutoLayout (flattenTree root collapsed).nodes
        (flattenTree root collapsed).orderById (flattenTree root collapsed).childrenById
        orientation nodeWidth nodeHeight levelGap siblingGap).filter
          fun n => n.depth == d).map fun n => n.order)
      (List.range (((flattenTree root collapsed).nodes.filter
        fun n => n.depth == d).length)) := by
  apply computeAutoLayout_order_contiguity
  rw [flattenTree_nodes]
  exact hnd.sublist (flattenR_ids_sublist collapsed root none 0)

/-- Witness for C3 at a concrete input: the example tree A with children B
and C where B has child D, nothing collapsed, depth 1. -/
theorem order_contiguity_witness :
    (NodeT.mk ("A") [NodeT.mk ("B") [NodeT.mk ("D") []], NodeT.mk ("C") []]).ids.Nodup ∧
    List.Perm
      (((computeAutoLayout
        (flattenTree (NodeT.mk ("A") [NodeT.mk ("B") [NodeT.mk ("D") []],
          NodeT.mk ("C") []]) []).nodes
        (flattenTree (NodeT.mk ("A") [NodeT.mk ("B") [NodeT.mk ("D") []],
          NodeT.mk ("C") []]) []).orderById
        (flattenTree (NodeT.mk ("A") [NodeT.mk ("B") [NodeT.mk ("D") []],
          NodeT.mk ("C") []]) []).childrenById
        IntentTreeOrientation.vertical 200 60 90 20).filter
          fun n => n.depth == 1).map fun n => n.order)
      (List.range (((flattenTree (NodeT.mk ("A") [NodeT.mk ("B") [NodeT.mk ("D") []],
        NodeT.mk ("C") []]) []).nodes.filter fun n => n.depth == 1).length)) :=
  ⟨by decide,
    order_contiguity (NodeT.mk ("A") [NodeT.mk ("B") [NodeT.mk ("D") []], NodeT.mk ("C") []])
      [] IntentTreeOrientation.vertical 200 60 90 20 (by decide) 1⟩

/-- C5. Auto-layout position formula: in vertical orientation every computed
node satisfies y = depth * (nodeHeight + levelGap) and
x = order * (nodeWidth + siblingGap), where order is the index of the node
id inside its depth group sorted by overall traversal order; and for the
example tree A with children B and C, B with child D, with nodeHeight 60,
levelGap 90, nodeWidth 200, siblingGap 20: A is at (0, 0), B at (0, 150),
D at (0, 300) and C at (220, 150). -/
theorem auto_layout_position (flat : List FlatNode) (orderById : List (String × Nat))
    (childrenById : List (String × List String)) (nodeWidth nodeHeight levelGap siblingGap : ℚ) :
    (∀ (i : Nat) (h : i < (computeAutoLayout flat orderById childrenById
        IntentTreeOrientation.vertical nodeWidth nodeHeight levelGap siblingGap).length)
      (c : ComputedNode),
      c = (computeAutoLayout flat orderById childrenById IntentTreeOrientation.vertical
        nodeWidth nodeHeight levelGap siblingGap).get ⟨i, h⟩ →
      c.y = (c.depth : ℚ) * (nodeHeight + levelGap) ∧
      c.x = (c.order : ℚ) * (nodeWidth + siblingGap) ∧
      c.order = List.findIdx (fun x => x.id == c.id) (sortedSibs flat orderById c.depth)) ∧
    (computeAutoLayout
      (flattenTree (NodeT.mk ("A") [NodeT.mk ("B") [NodeT.mk ("D") []],
        NodeT.mk ("C") []]) []).nodes
      (flattenTree (NodeT.mk ("A") [NodeT.mk ("B") [NodeT.mk ("D") []],
        NodeT.mk ("C") []]) []).orderById
      (flattenTree (NodeT.mk ("A") [NodeT.mk ("B") [NodeT.mk ("D") []],
        NodeT.mk ("C") []]) []).childrenById
      IntentTreeOrientation.vertical 200 60 90 20).map (fun n => (n.id, n.x, n.y)) =
      [("A", (0 : ℚ), (0 : ℚ)), ("B", 0, 150), ("D", 0, 300), ("C", 220, 150)] := by
  constructor
  · intro i h c hc
    subst hc
    have hlen : i < flat.length := by
      have hh := h
      simpa [computeAutoLayout] using hh
    simp only [computeAutoLayout, List.get_eq_getElem, List.getElem_map]
    refine ⟨by simp, by simp, ?_⟩
    have hmem : flat[i] ∈ sortedSibs flat orderById flat[i].depth := by
      apply (List.perm_insertionSort _ _).mem_iff.mpr
      apply List.mem_filter.mpr
      exact ⟨List.getElem_mem hlen, by simp⟩
    rw [if_pos (List.findIdx_lt_length_of_exists ⟨flat[i], hmem, by simp⟩)]
  · rw [flattenTree_eq]
    have h1 : (flattenR [] none 0 (NodeT.mk ("A") [NodeT.mk ("B") [NodeT.mk ("D") []],
        NodeT.mk ("C") []])).1 = [⟨"A", none, 0⟩, ⟨"B", some ("A"), 1⟩,
        ⟨"D", some ("B"), 2⟩, ⟨"C", some ("A"), 1⟩] := by decide
    rw [h1]
    have h2 : buildMap (([(⟨"A", none, 0⟩ : FlatNode), ⟨"B", some ("A"), 1⟩,
        ⟨"D", some ("B"), 2⟩, ⟨"C", some ("A"), 1⟩]).enum.map fun p => (p.2.id, p.1))
        = [("C", 3), ("D", 2), ("B", 1), ("A", 0)] := by decide
    rw [h2]
    norm_num +decide [computeAutoLayout, sortedSibs, orderGet, mapGet, mapSet, buildMap,
      List.insertionSort, List.orderedInsert, List.findIdx_cons, List.filter, List.find?,
      Option.getD, Option.map]

/-- Witness for C5 at a concrete input: the flat nodes of the example tree
with the example parameters, at index 0. -/
theorem auto_layout_position_witness :
    ((0 : Nat) < (computeAutoLayout [⟨"A", none, 0⟩, ⟨"B", some ("A"), 1⟩,
      ⟨"D", some ("B"), 2⟩, ⟨"C", some ("A"), 1⟩]
      [("A", 0), ("B", 1), ("D", 2), ("C", 3)] [] IntentTreeOrientation.vertical
      200 60 90 20).length) ∧
    (((computeAutoLayout [⟨"A", none, 0⟩, ⟨"B", some ("A"), 1⟩, ⟨"D", some ("B"), 2⟩,
        ⟨"C", some ("A"), 1⟩] [("A", 0), ("B", 1), ("D", 2), ("C", 3)] []
        IntentTreeOrientation.vertical 200 60 90 20).get ⟨0, by decide⟩).y =
      ((((computeAutoLayout [⟨"A", none, 0⟩, ⟨"B", some ("A"), 1⟩, ⟨"D", some ("B"), 2⟩,
        ⟨"C", some ("A"), 1⟩] [("A", 0), ("B", 1), ("D", 2), ("C", 3)] []
        IntentTreeOrientation.vertical 200 60 90 20).get ⟨0, by decide⟩).depth : ℚ))
        * (60 + 90)) :=
  ⟨by decide,
    (((auto_layout_position [⟨"A", none, 0⟩, ⟨"B", some ("A"), 1⟩, ⟨"D", some ("B"), 2⟩,
      ⟨"C", some ("A"), 1⟩] [("A", 0), ("B", 1), ("D", 2), ("C", 3)] [] 200 60 90 20).1
      0 (by decide) _ rfl).1)⟩

end IntentTree
